import Mathlib

/-!
Shallow embedding of the metadata/lock engine of the LAN version-control
prototype (`src/app.js`).

The server keeps all state in a single JSON file (`metadata.json`) with two
top-level maps: `files` (an array of file records) and `locks` (an object
keyed by file name).  Every helper (`loadMetadata`, `saveMetadata`,
`lockFile`, `unlockFile`) reads or rewrites that file as a whole, and every
HTTP handler is fully synchronous (all I/O is `readFileSync` /
`writeFileSync`), so each handler runs to completion atomically on the Node
event loop.  We therefore model the durable metadata as a value of type
`Metadata`, and each handler as a function from the on-disk metadata (plus
request parameters) to a response together with the on-disk metadata after
the request.

The blob store and the SHA-256 hasher are external to the metadata engine:
we model the blob store as a map from storage paths to optional byte
contents (`none` meaning the path is unreadable, in which case
`fs.readFileSync` throws), and the hasher as an abstract function from byte
contents to digest strings.  A synchronous throw inside an Express handler
aborts the handler at that point (Express answers 500); no code after the
throwing line runs.
-/

/-- One entry of the `locks` object: `{ lockedBy, lockedAt }` (app.js 96-99). -/
structure LockEntry where
  lockedBy : String
  lockedAt : Nat
deriving Repr, DecidableEq

/-- One element of a file's `versions` array (app.js 131-137). -/
structure VersionRecord where
  version : Nat
  path : String
  hash : String
  uploadedBy : String
  uploadedAt : Nat
deriving Repr, DecidableEq

/-- One element of the `files` array: `{ name, versions }` (app.js 125). -/
structure FileRecord where
  name : String
  versions : List VersionRecord
deriving Repr, DecidableEq

/-- The whole content of `metadata.json`: the `files` array and the `locks`
object.  The `locks` object is modelled as an association list in key
insertion order; JavaScript object keys are unique. -/
structure Metadata where
  files : List FileRecord
  locks : List (String × LockEntry)
deriving Repr, DecidableEq

/-- Lookup `data.locks[filename]` (app.js 91, 115). -/
def getLock (locks : List (String × LockEntry)) (filename : String) :
    Option LockEntry :=
  (locks.find? (fun kv => kv.1 == filename)).map (fun kv => kv.2)

/-- Assignment `data.locks[filename] = e`: overwrites in place when the key
exists, otherwise appends (JavaScript object update semantics). -/
def setLock (locks : List (String × LockEntry)) (filename : String)
    (e : LockEntry) : List (String × LockEntry) :=
  if locks.any (fun kv => kv.1 == filename) then
    locks.map (fun kv => if kv.1 == filename then (filename, e) else kv)
  else
    locks ++ [(filename, e)]

/-- `delete data.locks[filename]`: removes the key if present (JavaScript
objects have unique keys, so filtering removes exactly that binding). -/
def delLock (locks : List (String × LockEntry)) (filename : String) :
    List (String × LockEntry) :=
  locks.filter (fun kv => kv.1 != filename)

/-- `lockFile(filename, user)` (app.js 94-101): load metadata, set the lock
entry to the requesting user, save. -/
def lockFile (m : Metadata) (filename username : String) (now : Nat) :
    Metadata :=
  { m with locks := setLock m.locks filename ⟨username, now⟩ }

/-- `unlockFile(filename)` (app.js 103-107): load metadata, delete the lock
entry, save. -/
def unlockFile (m : Metadata) (filename : String) : Metadata :=
  { m with locks := delLock m.locks filename }

/-- `meta.files.find(f => f.name === name)` (app.js 122, 156, 165, 178). -/
def findFile (files : List FileRecord) (name : String) : Option FileRecord :=
  files.find? (fun f => f.name == name)

/-- The lock-conflict test of the upload handler (app.js 115):
`meta.locks[originalname] && meta.locks[originalname].lockedBy !== req.user.username`. -/
def lockConflict (m : Metadata) (name principal : String) : Bool :=
  match getLock m.locks name with
  | some e => e.lockedBy != principal
  | none => false

/-- The version number assigned by the upload handler (app.js 129):
`file.versions.length + 1`, where `file` is the record found for the name,
freshly created with `versions = []` when absent (app.js 124-127). -/
def nextVersion (files : List FileRecord) (name : String) : Nat :=
  match findFile files name with
  | some f => f.versions.length + 1
  | none => 1

/-- The in-memory mutation of `meta.files` done by the upload handler
(app.js 122-137): `find` returns a reference to the first record with the
name and `push` appends to its `versions`; when no record exists a fresh
`{ name, versions: [] }` is pushed onto `files` and the version is appended
to it. -/
def pushVersion : List FileRecord → String → VersionRecord → List FileRecord
  | [], name, v => [⟨name, [v]⟩]
  | f :: fs, name, v =>
    if f.name == name then ⟨f.name, f.versions ++ [v]⟩ :: fs
    else f :: pushVersion fs name v

/-- The largest version number present in a record (`currentMax` in the
spec's description of `appendVersion`). -/
def currentMax (f : FileRecord) : Nat :=
  f.versions.foldl (fun a v => max a v.version) 0

/-- Outcome of one `POST /upload` request. -/
inductive UploadResult where
  | locked
  | hashError
  | ok (version : Nat)
deriving Repr, DecidableEq

/-- An HTTP JSON response: status code plus the body's string fields. -/
structure JsonResponse where
  status : Nat
  body : List (String × String)
deriving Repr, DecidableEq

/-- The HTTP response the upload handler produces for each outcome:
`423 {message:"File is locked"}` (app.js 116), Express's default `500` page
when `generateHash` throws, `200 {message:"Uploaded", version}` (app.js 144). -/
def uploadHttpResponse : UploadResult → JsonResponse
  | .locked => ⟨423, [("message", "File is locked")]⟩
  | .hashError => ⟨500, []⟩
  | .ok v => ⟨200, [("message", "Uploaded"), ("version", toString v)]⟩

/-- `POST /upload` (app.js 110-145), acting on the durable metadata `disk`.

The handler's exact sequence of durable states, reflected below:
1. `meta = loadMetadata()` — a snapshot of `disk` (line 113);
2. lock-conflict check against `meta` (115-117): on conflict, reply 423 and
   leave `disk` unchanged;
3. `lockFile` does its own load-modify-save, so the durable state becomes
   `lockFile disk` (line 119) while `meta` stays the pre-lock snapshot;
4. `generateHash(path)` (line 121) reads the blob; if the path is
   unreadable the `readFileSync` throw aborts the handler, so the lock
   written in step 3 stays on disk;
5. the version is appended to the in-memory `meta` (122-137);
6. `unlockFile` load-modify-saves the durable state (line 139), then
   `saveMetadata(meta)` (line 140) overwrites that save wholesale with
   `meta` — whose `locks` are still the snapshot from step 1. -/
def uploadHandler (disk : Metadata) (name principal blobPath : String)
    (hashFn : List Nat → String) (blobs : String → Option (List Nat))
    (now : Nat) : UploadResult × Metadata :=
  let meta := disk
  if lockConflict meta name principal then
    (.locked, disk)
  else
    let disk1 := lockFile disk name principal now
    match blobs blobPath with
    | none => (.hashError, disk1)
    | some bytes =>
      let hash := hashFn bytes
      let version := nextVersion meta.files name
      let v : VersionRecord := ⟨version, blobPath, hash, principal, now⟩
      let meta2 : Metadata := { meta with files := pushVersion meta.files name v }
      let disk2 := unlockFile disk1 name
      let disk3 := meta2
      let _ := disk2
      (.ok version, disk3)

/-- `GET /files` (app.js 148-151): responds with `meta.files` verbatim and
does not save, so the durable metadata is returned unchanged. -/
def listFilesHandler (m : Metadata) : List FileRecord × Metadata :=
  (m.files, m)

/-- Modelled from the spec (§6 external interfaces): the advertised shape of
`listFiles`, a pair of name and versionCount per file, for comparison with
the implementation's response. -/
def listFilesSpec (m : Metadata) : List (String × Nat) :=
  m.files.map (fun f => (f.name, f.versions.length))

/-- Outcome of `GET /files/:name/versions`. -/
inductive VersionsResult where
  | notFound
  | ok (versions : List VersionRecord)
deriving Repr, DecidableEq

/-- `GET /files/:name/versions` (app.js 154-159). -/
def listVersionsHandler (m : Metadata) (name : String) :
    VersionsResult × Metadata :=
  match findFile m.files name with
  | none => (.notFound, m)
  | some f => (.ok f.versions, m)

/-- Outcome of `GET /download/:name/:version`. -/
inductive DownloadResult where
  | notFound
  | versionNotFound
  | ok (path : String)
deriving Repr, DecidableEq

/-- `GET /download/:name/:version` (app.js 162-172): find the file (404 if
absent), find the version record (404 if absent), respond with the stored
path's content.  The handler never saves metadata. -/
def downloadHandler (m : Metadata) (name : String) (version : Nat) :
    DownloadResult × Metadata :=
  match findFile m.files name with
  | none => (.notFound, m)
  | some f =>
    match f.versions.find? (fun v => v.version == version) with
    | none => (.versionNotFound, m)
    | some v => (.ok v.path, m)

/-- Outcome of `GET /verify/:name/:version`. -/
inductive VerifyResult where
  | notFound
  | versionNotFound
  | hashError
  | ok (stored current : String) (valid : Bool)
deriving Repr, DecidableEq

/-- `GET /verify/:name/:version` (app.js 175-191): find the file and
version record (404s), recompute the hash of the blob at the stored path
(a throw if unreadable), and respond with the stored hash, the recomputed
hash, and `valid: v.hash === currentHash`.  No metadata is saved. -/
def verifyHandler (m : Metadata) (name : String) (version : Nat)
    (hashFn : List Nat → String) (blobs : String → Option (List Nat)) :
    VerifyResult × Metadata :=
  match findFile m.files name with
  | none => (.notFound, m)
  | some f =>
    match f.versions.find? (fun v => v.version == version) with
    | none => (.versionNotFound, m)
    | some v =>
      match blobs v.path with
      | none => (.hashError, m)
      | some bytes =>
        let currentHash := hashFn bytes
        (.ok v.hash currentHash (v.hash == currentHash), m)

/-- `POST /admin/unlock/:name` (app.js 199-202): calls `unlockFile` and
always replies `200 {message:"Unlocked"}`. -/
def adminUnlockHandler (m : Metadata) (name : String) :
    JsonResponse × Metadata :=
  (⟨200, [("message", "Unlocked")]⟩, unlockFile m name)

/-- One upload request: file name, authenticated principal, blob path, and
the request timestamp. -/
structure UploadReq where
  name : String
  principal : String
  blobPath : String
  now : Nat
deriving Repr, DecidableEq

/-- A batch of upload requests handed to the server together.  Every
handler body is synchronous, so the Node event loop runs them one after
another, each to completion (run-to-completion semantics): this is the
execution of N "concurrent" submits. -/
def runUploads (hashFn : List Nat → String)
    (blobs : String → Option (List Nat)) :
    Metadata → List UploadReq → List UploadResult × Metadata
  | m, [] => ([], m)
  | m, r :: rs =>
    let step := uploadHandler m r.name r.principal r.blobPath hashFn blobs r.now
    let rest := runUploads hashFn blobs step.2 rs
    (step.1 :: rest.1, rest.2)

/-- The empty server state (fresh `metadata.json`: no files, no locks). -/
def emptyMeta : Metadata := ⟨[], []⟩

/-- The per-file invariant claimed by the spec: versions are 1-based and
contiguous, `versions[i].version == i+1`. -/
def goodFile (f : FileRecord) : Prop :=
  ∀ i (h : i < f.versions.length), (f.versions.get ⟨i, h⟩).version = i + 1

/-- Every file record in the store satisfies the version invariant. -/
def goodMeta (m : Metadata) : Prop :=
  ∀ f ∈ m.files, goodFile f

instance (f : FileRecord) : Decidable (goodFile f) := by
  unfold goodFile; infer_instance

instance (m : Metadata) : Decidable (goodMeta m) := by
  unfold goodMeta goodFile; infer_instance

/-! ## Helper lemmas about the lock map -/

theorem find?_map_set (locks : List (String × LockEntry)) (name : String)
    (e : LockEntry) (h : locks.any (fun kv => kv.1 == name) = true) :
    (locks.map (fun kv => if kv.1 == name then (name, e) else kv)).find?
      (fun kv => kv.1 == name) = some (name, e) := by
  induction locks with
  | nil => simp at h
  | cons kv rest ih =>
    rw [List.map_cons, List.find?_cons]
    cases hk : kv.1 == name with
    | true => simp
    | false =>
      have h' : rest.any (fun kv => kv.1 == name) = true := by
        simpa [List.any_cons, hk] using h
      simpa [hk] using ih h'

theorem getLock_setLock (locks : List (String × LockEntry)) (name : String)
    (e : LockEntry) : getLock (setLock locks name e) name = some e := by
  unfold getLock setLock
  by_cases h : locks.any (fun kv => kv.1 == name) = true
  · rw [if_pos h, find?_map_set locks name e h]
    rfl
  · rw [if_neg h, List.find?_append]
    have hnone : locks.find? (fun kv => kv.1 == name) = none := by
      rw [List.find?_eq_none]
      intro x hx hbeq
      exact h (List.any_eq_true.mpr ⟨x, hx, hbeq⟩)
    simp [hnone]

theorem getLock_delLock_self (locks : List (String × LockEntry))
    (name : String) : getLock (delLock locks name) name = none := by
  unfold getLock delLock
  have h : (locks.filter (fun kv => kv.1 != name)).find?
      (fun kv => kv.1 == name) = none := by
    rw [List.find?_eq_none]
    intro x hx hbeq
    rcases List.mem_filter.mp hx with ⟨-, hbne⟩
    exact (bne_iff_ne.mp hbne) (beq_iff_eq.mp hbeq)
  rw [h]
  rfl

theorem getLock_delLock_other (locks : List (String × LockEntry))
    (name g : String) (hg : g ≠ name) :
    getLock (delLock locks name) g = getLock locks g := by
  unfold getLock delLock
  induction locks with
  | nil => rfl
  | cons kv rest ih =>
    by_cases hk : (kv.1 != name) = true
    · by_cases hkg : (kv.1 == g) = true
      · simp [List.filter_cons, hk, List.find?_cons, hkg]
      · simp only [List.filter_cons, hk, if_true, List.find?_cons, hkg] at ih ⊢
        simpa [hkg] using ih
    · have hkn : kv.1 = name := by
        by_contra hne
        exact hk (bne_iff_ne.mpr hne)
      have hkg : (kv.1 == g) = false := by
        rw [hkn]
        exact beq_eq_false_iff_ne.mpr (Ne.symm hg)
      simp only [List.filter_cons, hk, if_false, List.find?_cons, hkg] at ih ⊢
      simpa [hkg] using ih

theorem delLock_idem (locks : List (String × LockEntry)) (name : String) :
    delLock (delLock locks name) name = delLock locks name := by
  unfold delLock
  rw [List.filter_filter]
  congr 1
  funext kv
  exact Bool.and_self _

theorem delLock_of_none (locks : List (String × LockEntry)) (name : String)
    (h : getLock locks name = none) : delLock locks name = locks := by
  unfold delLock
  rw [List.filter_eq_self]
  intro kv hkv
  unfold getLock at h
  rw [Option.map_eq_none', List.find?_eq_none] at h
  exact bne_iff_ne.mpr (fun he => h kv hkv (beq_iff_eq.mpr he))

/-! ## Helper lemmas about the files array -/

theorem findFile_pushVersion_self (files : List FileRecord) (name : String)
    (v : VersionRecord) :
    findFile (pushVersion files name v) name =
      some ⟨name, (Option.elim (findFile files name) [] FileRecord.versions)
        ++ [v]⟩ := by
  induction files with
  | nil => simp [findFile, pushVersion, List.find?_cons]
  | cons f fs ih =>
    unfold pushVersion
    cases hf : f.name == name with
    | true =>
      have hn : f.name = name := beq_iff_eq.mp hf
      simp [findFile, List.find?_cons, hf, hn]
    | false =>
      simp only [Bool.false_eq_true, if_false]
      have hl : findFile (f :: pushVersion fs name v) name =
          findFile (pushVersion fs name v) name := by
        simp [findFile, List.find?_cons, hf]
      have hr : findFile (f :: fs) name = findFile fs name := by
        simp [findFile, List.find?_cons, hf]
      rw [hl, hr, ih]

theorem findFile_pushVersion_other (files : List FileRecord)
    (name g : String) (v : VersionRecord) (hg : g ≠ name) :
    findFile (pushVersion files name v) g = findFile files g := by
  induction files with
  | nil =>
    have : (name == g) = false := beq_eq_false_iff_ne.mpr (Ne.symm hg)
    simp [findFile, pushVersion, List.find?_cons, this]
  | cons f fs ih =>
    unfold pushVersion
    cases hf : f.name == name with
    | true =>
      have hn : f.name = name := beq_iff_eq.mp hf
      have hng : (name == g) = false := beq_eq_false_iff_ne.mpr (Ne.symm hg)
      have hfg : (f.name == g) = false := by rw [hn]; exact hng
      simp [findFile, List.find?_cons, hfg, hn, hng]
    | false =>
      simp only [Bool.false_eq_true, if_false]
      cases hfg : f.name == g with
      | true => simp [findFile, List.find?_cons, hfg]
      | false => simpa [findFile, List.find?_cons, hfg] using ih

theorem nextVersion_pushVersion_self (files : List FileRecord)
    (name : String) (v : VersionRecord) :
    nextVersion (pushVersion files name v) name =
      nextVersion files name + 1 := by
  unfold nextVersion
  rw [findFile_pushVersion_self]
  cases h : findFile files name <;> simp [h]

/-! ## Helper lemmas about the version-number invariant -/

theorem goodFile_of_append (l : List VersionRecord) (v : VersionRecord)
    (n n' : String) (hg : goodFile ⟨n, l⟩) (hv : v.version = l.length + 1) :
    goodFile ⟨n', l ++ [v]⟩ := by
  intro i h
  simp only [List.get_eq_getElem] at *
  rcases Nat.lt_or_ge i l.length with hi | hi
  · have := hg i hi
    simp only [List.get_eq_getElem] at this
    show (l ++ [v])[i].version = i + 1
    rw [List.getElem_append_left hi]
    exact this
  · have hlen : i < l.length + 1 := by simpa using h
    have hl : i = l.length := by omega
    show (l ++ [v])[i].version = i + 1
    rw [List.getElem_concat_length l v i hl]
    rw [hv, hl]

theorem goodFiles_pushVersion (files : List FileRecord) (name : String)
    (v : VersionRecord) (hg : ∀ f ∈ files, goodFile f)
    (hv : v.version = nextVersion files name) :
    ∀ f ∈ pushVersion files name v, goodFile f := by
  induction files with
  | nil =>
    intro f hf
    have hv1 : v.version = 1 := by simpa [nextVersion, findFile] using hv
    have : f = ⟨name, [v]⟩ := by simpa [pushVersion] using hf
    subst this
    intro i h
    have hi : i = 0 := by simpa using h
    subst hi
    simpa using hv1
  | cons f fs ih =>
    unfold pushVersion
    cases hf : f.name == name with
    | true =>
      have hvv : v.version = f.versions.length + 1 := by
        simpa [nextVersion, findFile, List.find?_cons, hf] using hv
      intro g hg'
      simp only [if_true] at hg'
      rcases List.mem_cons.mp hg' with h1 | h2
      · subst h1
        exact goodFile_of_append f.versions v f.name f.name
          (hg f (List.mem_cons_self f fs)) hvv
      · exact hg g (List.mem_cons_of_mem f h2)
    | false =>
      have hvv : v.version = nextVersion fs name := by
        simpa [nextVersion, findFile, List.find?_cons, hf] using hv
      intro g hg'
      simp only [Bool.false_eq_true, if_false] at hg'
      rcases List.mem_cons.mp hg' with h1 | h2
      · subst h1
        exact hg g (List.mem_cons_self g fs)
      · exact ih (fun x hx => hg x (List.mem_cons_of_mem f hx)) hvv g h2

theorem goodFile_map_version (f : FileRecord) (hg : goodFile f) :
    f.versions.map VersionRecord.version =
      List.range' 1 f.versions.length := by
  apply List.ext_getElem
  · simp [List.length_range']
  · intro n h1 h2
    rw [List.getElem_map, List.getElem_range'_1]
    have := hg n (by simpa using h1)
    simp only [List.get_eq_getElem] at this
    omega

theorem foldl_max_range' (n : Nat) :
    List.foldl max 0 (List.range' 1 n) = n := by
  induction n with
  | zero => rfl
  | succ k ih =>
    rw [List.range'_1_concat, List.foldl_append]
    simp only [List.foldl_cons, List.foldl_nil, ih]
    omega

theorem currentMax_eq_length (f : FileRecord) (hg : goodFile f) :
    currentMax f = f.versions.length := by
  unfold currentMax
  rw [show f.versions.foldl (fun a v => max a v.version) 0 =
      List.foldl max 0 (f.versions.map VersionRecord.version) from
    (List.foldl_map VersionRecord.version max f.versions 0).symm]
  rw [goodFile_map_version f hg, foldl_max_range']

/-! ## Path characterizations of the upload handler -/

theorem uploadHandler_conflict (m : Metadata) (name p bp : String)
    (hF : List Nat → String) (bl : String → Option (List Nat)) (now : Nat)
    (hc : lockConflict m name p = true) :
    uploadHandler m name p bp hF bl now = (.locked, m) := by
  unfold uploadHandler
  simp [hc]

theorem uploadHandler_hashError (m : Metadata) (name p bp : String)
    (hF : List Nat → String) (bl : String → Option (List Nat)) (now : Nat)
    (hc : lockConflict m name p = false) (hb : bl bp = none) :
    uploadHandler m name p bp hF bl now =
      (.hashError, lockFile m name p now) := by
  unfold uploadHandler
  simp [hc, hb]

theorem uploadHandler_success (m : Metadata) (name p bp : String)
    (hF : List Nat → String) (bl : String → Option (List Nat)) (now : Nat)
    (bytes : List Nat) (hc : lockConflict m name p = false)
    (hb : bl bp = some bytes) :
    uploadHandler m name p bp hF bl now =
      (.ok (nextVersion m.files name),
       ⟨pushVersion m.files name
          ⟨nextVersion m.files name, bp, hF bytes, p, now⟩, m.locks⟩) := by
  unfold uploadHandler
  simp [hc, hb]

theorem goodMeta_uploadHandler (m : Metadata) (name p bp : String)
    (hF : List Nat → String) (bl : String → Option (List Nat)) (now : Nat)
    (hg : goodMeta m) :
    goodMeta (uploadHandler m name p bp hF bl now).2 := by
  cases hc : lockConflict m name p with
  | true => rw [uploadHandler_conflict m name p bp hF bl now hc]; exact hg
  | false =>
    cases hb : bl bp with
    | none => rw [uploadHandler_hashError m name p bp hF bl now hc hb]; exact hg
    | some bytes =>
      rw [uploadHandler_success m name p bp hF bl now bytes hc hb]
      exact goodFiles_pushVersion m.files name _ hg rfl

theorem goodMeta_runUploads (hF : List Nat → String)
    (bl : String → Option (List Nat)) (reqs : List UploadReq) :
    ∀ m : Metadata, goodMeta m → goodMeta (runUploads hF bl m reqs).2 := by
  induction reqs with
  | nil => intro m hg; exact hg
  | cons r rs ih =>
    intro m hg
    exact ih _ (goodMeta_uploadHandler m r.name r.principal r.blobPath hF bl r.now hg)

theorem nextVersion_eq_currentMax (m : Metadata) (name : String)
    (hg : goodMeta m) :
    nextVersion m.files name =
      match findFile m.files name with
      | some f => currentMax f + 1
      | none => 1 := by
  unfold nextVersion
  cases h : findFile m.files name with
  | none => rfl
  | some f =>
    have hf : f ∈ m.files := List.mem_of_find?_eq_some h
    dsimp only
    rw [currentMax_eq_length f (hg f hf)]

theorem ok_range_shift (c k : Nat) :
    UploadResult.ok c ::
        (List.range k).map (fun i => UploadResult.ok (c + 1 + i)) =
      (List.range (k + 1)).map (fun i => UploadResult.ok (c + i)) := by
  induction k with
  | zero =>
    rw [List.range_succ 0]
    simp
  | succ n ih =>
    have h1 : List.range (n + 1) = List.range n ++ [n] := List.range_succ n
    have h2 : List.range (n + 2) = List.range (n + 1) ++ [n + 1] :=
      List.range_succ (n + 1)
    rw [h2, List.map_append, ← ih, List.cons_append, h1, List.map_append]
    have h3 : c + 1 + n = c + (n + 1) := by omega
    simp [h3]

theorem runUploads_all_ok (hF : List Nat → String)
    (bl : String → Option (List Nat)) (name : String) :
    ∀ (reqs : List UploadReq) (m : Metadata),
      (∀ r ∈ reqs, r.name = name) →
      (∀ r ∈ reqs, (bl r.blobPath).isSome = true) →
      getLock m.locks name = none →
      (runUploads hF bl m reqs).1 =
        (List.range reqs.length).map
          (fun i => UploadResult.ok (nextVersion m.files name + i)) ∧
      getLock (runUploads hF bl m reqs).2.locks name = none := by
  intro reqs
  induction reqs with
  | nil =>
    intro m _ _ hl
    exact ⟨rfl, hl⟩
  | cons r rs ih =>
    intro m hname hblob hl
    have hrname : r.name = name := hname r (List.mem_cons_self r rs)
    obtain ⟨bytes, hb⟩ : ∃ bytes, bl r.blobPath = some bytes := by
      have hsome := hblob r (List.mem_cons_self r rs)
      cases hbb : bl r.blobPath with
      | none => rw [hbb] at hsome; cases hsome
      | some b => exact ⟨b, rfl⟩
    have hc : lockConflict m r.name r.principal = false := by
      unfold lockConflict
      rw [hrname, hl]
    have hstep := uploadHandler_success m r.name r.principal r.blobPath hF bl
      r.now bytes hc hb
    have hrun : runUploads hF bl m (r :: rs) =
        ((uploadHandler m r.name r.principal r.blobPath hF bl r.now).1 ::
          (runUploads hF bl
            (uploadHandler m r.name r.principal r.blobPath hF bl r.now).2 rs).1,
         (runUploads hF bl
            (uploadHandler m r.name r.principal r.blobPath hF bl r.now).2 rs).2) :=
      rfl
    rw [hrun, hstep]
    dsimp only
    rw [hrname]
    obtain ⟨ih1, ih2⟩ := ih
      ⟨pushVersion m.files name
        ⟨nextVersion m.files name, r.blobPath, hF bytes, r.principal, r.now⟩,
       m.locks⟩
      (fun x hx => hname x (List.mem_cons_of_mem r hx))
      (fun x hx => hblob x (List.mem_cons_of_mem r hx))
      hl
    refine ⟨?_, ih2⟩
    rw [ih1]
    have hnv := nextVersion_pushVersion_self m.files name
      ⟨nextVersion m.files name, r.blobPath, hF bytes, r.principal, r.now⟩
    simp only [hnv]
    exact ok_range_shift (nextVersion m.files name) rs.length

/-! ## Claim theorems -/

/-- C1: the spec claims `submit` always leaves the file unlocked afterward,
regardless of success or failure and regardless of a pre-held lock.  The
code violates this at concrete inputs: (a) when the hash step fails, the
handler aborts before `unlockFile`, so the lock it just wrote stays in the
metadata; (b) when the principal already held the lock before the request,
the final `saveMetadata(meta)` re-persists the stale snapshot that still
contains the lock entry, so the name stays locked although the upload
succeeded. -/
theorem C1_submit_leaves_lock :
    ((uploadHandler emptyMeta "f" "alice" "bad" (fun _ => "h")
        (fun _ => none) 5).1 = .hashError ∧
     getLock (uploadHandler emptyMeta "f" "alice" "bad" (fun _ => "h")
        (fun _ => none) 5).2.locks "f" = some ⟨"alice", 5⟩) ∧
    ((uploadHandler ⟨[], [("f", ⟨"alice", 0⟩)]⟩ "f" "alice" "p"
        (fun _ => "h") (fun _ => some [1]) 5).1 = .ok 1 ∧
     getLock (uploadHandler ⟨[], [("f", ⟨"alice", 0⟩)]⟩ "f" "alice" "p"
        (fun _ => "h") (fun _ => some [1]) 5).2.locks "f" =
       some ⟨"alice", 0⟩) :=
  ⟨⟨rfl, rfl⟩, ⟨rfl, rfl⟩⟩

/-- C2: starting from any store satisfying the version invariant, a
successful upload assigns version currentMax+1 for an existing file and 1
for an unknown one, creating its record, and preserves the invariant; and
after any sequence of uploads from the empty store every record's versions
list is 1-based, contiguous and strictly increasing
(versions[i].version = i+1). -/
theorem C2_version_invariant :
    (∀ (m : Metadata) (name p bp : String) (hF : List Nat → String)
       (bl : String → Option (List Nat)) (now : Nat) (bytes : List Nat),
       goodMeta m → lockConflict m name p = false → bl bp = some bytes →
       (uploadHandler m name p bp hF bl now).1 =
         .ok (match findFile m.files name with
              | some f => currentMax f + 1
              | none => 1) ∧
       goodMeta (uploadHandler m name p bp hF bl now).2 ∧
       (findFile (uploadHandler m name p bp hF bl now).2.files name).isSome
         = true) ∧
    (∀ (hF : List Nat → String) (bl : String → Option (List Nat))
       (reqs : List UploadReq),
       goodMeta (runUploads hF bl emptyMeta reqs).2) := by
  constructor
  · intro m name p bp hF bl now bytes hg hc hb
    rw [uploadHandler_success m name p bp hF bl now bytes hc hb]
    dsimp only
    refine ⟨?_, ?_, ?_⟩
    · rw [← nextVersion_eq_currentMax m name hg]
    · exact goodFiles_pushVersion m.files name _ hg rfl
    · rw [findFile_pushVersion_self]
      rfl
  · intro hF bl reqs
    apply goodMeta_runUploads
    intro f hf
    simp [emptyMeta] at hf

/-- C2 witness: the first upload of "f" into the empty store is assigned
version 1 and yields a store satisfying the invariant. -/
theorem C2_version_invariant_witness :
    (uploadHandler emptyMeta "f" "alice" "p" (fun _ => "h")
        (fun _ => some [1]) 0).1 =
      .ok (match findFile emptyMeta.files "f" with
           | some f => currentMax f + 1
           | none => 1) ∧
    goodMeta (uploadHandler emptyMeta "f" "alice" "p" (fun _ => "h")
        (fun _ => some [1]) 0).2 ∧
    (findFile (uploadHandler emptyMeta "f" "alice" "p" (fun _ => "h")
        (fun _ => some [1]) 0).2.files "f").isSome = true :=
  C2_version_invariant.1 emptyMeta "f" "alice" "p" (fun _ => "h")
    (fun _ => some [1]) 0 [1] (by decide) rfl rfl

/-- C3 counterexample: with "f" locked by "alice", an upload by "bob" is
rejected and no state is mutated, but the 423 response body carries no
field holding the current holder's identity "alice" — the claim that the
FileLocked error carries the holder is false on the code. -/
theorem C3_counterexample :
    (uploadHandler ⟨[], [("f", ⟨"alice", 0⟩)]⟩ "f" "bob" "p"
        (fun _ => "h") (fun _ => some [1]) 5).1 = .locked ∧
    (uploadHandler ⟨[], [("f", ⟨"alice", 0⟩)]⟩ "f" "bob" "p"
        (fun _ => "h") (fun _ => some [1]) 5).2 =
      ⟨[], [("f", ⟨"alice", 0⟩)]⟩ ∧
    ¬ ∃ kv ∈ (uploadHttpResponse .locked).body, kv.2 = "alice" := by
  refine ⟨rfl, rfl, ?_⟩
  decide

/-- C3 (amended): when a lock entry for the name exists with a holder
different from the requesting principal, the upload fails with HTTP 423 and
the fixed body message "File is locked" — without the holder's identity —
and the metadata is not mutated. -/
theorem C3_locked_no_mutation (m : Metadata) (name p bp : String)
    (hF : List Nat → String) (bl : String → Option (List Nat)) (now : Nat)
    (e : LockEntry) (he : getLock m.locks name = some e)
    (hne : e.lockedBy ≠ p) :
    uploadHandler m name p bp hF bl now = (.locked, m) ∧
    uploadHttpResponse (uploadHandler m name p bp hF bl now).1 =
      ⟨423, [("message", "File is locked")]⟩ := by
  have hc : lockConflict m name p = true := by
    unfold lockConflict
    simp [he, bne_iff_ne.mpr hne]
  have h1 := uploadHandler_conflict m name p bp hF bl now hc
  exact ⟨h1, by rw [h1]; rfl⟩

/-- C3 witness: "bob" attempting to upload "f" while "alice" holds the lock
is rejected with the fixed 423 response and unchanged metadata. -/
theorem C3_locked_no_mutation_witness :
    uploadHandler ⟨[], [("f", ⟨"alice", 0⟩)]⟩ "f" "bob" "q" (fun _ => "h")
      (fun _ => some [2]) 7 = (.locked, ⟨[], [("f", ⟨"alice", 0⟩)]⟩) ∧
    uploadHttpResponse (uploadHandler ⟨[], [("f", ⟨"alice", 0⟩)]⟩ "f" "bob"
      "q" (fun _ => "h") (fun _ => some [2]) 7).1 =
      ⟨423, [("message", "File is locked")]⟩ :=
  C3_locked_no_mutation ⟨[], [("f", ⟨"alice", 0⟩)]⟩ "f" "bob" "q"
    (fun _ => "h") (fun _ => some [2]) 7 ⟨"alice", 0⟩ rfl (by decide)

/-- C4 counterexample: two submit requests for "f" pending together from
the distinct principals "alice" and "bob" are executed run-to-completion by
the event loop; both succeed (versions 1 and 2) and nobody receives
FileLocked — not one success and one FileLocked as the claim states. -/
theorem C4_counterexample :
    (runUploads (fun _ => "h") (fun _ => some [1]) emptyMeta
        [⟨"f", "alice", "p", 1⟩, ⟨"f", "bob", "p", 2⟩]).1 =
      [.ok 1, .ok 2] ∧ "alice" ≠ "bob" :=
  ⟨rfl, by decide⟩

/-- C4 (amended): upload handlers are fully synchronous, so N submit calls
pending together for the same name run serially, each to completion; when
the name is initially unlocked and every blob is readable, all N succeed —
none receives FileLocked — the assigned versions are the N consecutive
numbers starting at the current next version, pairwise distinct (each
version assigned exactly once), and the name is unlocked afterwards. -/
theorem C4_serialized_submits (hF : List Nat → String)
    (bl : String → Option (List Nat)) (name : String)
    (reqs : List UploadReq) (m : Metadata)
    (hname : ∀ r ∈ reqs, r.name = name)
    (hblob : ∀ r ∈ reqs, (bl r.blobPath).isSome = true)
    (hl : getLock m.locks name = none) :
    (runUploads hF bl m reqs).1 =
      (List.range reqs.length).map
        (fun i => UploadResult.ok (nextVersion m.files name + i)) ∧
    (runUploads hF bl m reqs).1.Nodup ∧
    getLock (runUploads hF bl m reqs).2.locks name = none := by
  obtain ⟨h1, h2⟩ := runUploads_all_ok hF bl name reqs m hname hblob hl
  refine ⟨h1, ?_, h2⟩
  rw [h1]
  refine List.Nodup.map ?_ (List.nodup_range _)
  intro a b hab
  simp only [UploadResult.ok.injEq] at hab
  omega

/-- C4 witness: the two pending submits of the counterexample scenario,
through the amended theorem: both succeed with consecutive versions and the
lock table ends without an entry for "f". -/
theorem C4_serialized_submits_witness :
    (runUploads (fun _ => "h") (fun _ => some [1]) emptyMeta
        [⟨"f", "alice", "p", 1⟩, ⟨"f", "bob", "p", 2⟩]).1 =
      (List.range ([⟨"f", "alice", "p", 1⟩,
          ⟨"f", "bob", "p", 2⟩] : List UploadReq).length).map
        (fun i => UploadResult.ok (nextVersion emptyMeta.files "f" + i)) ∧
    (runUploads (fun _ => "h") (fun _ => some [1]) emptyMeta
        [⟨"f", "alice", "p", 1⟩, ⟨"f", "bob", "p", 2⟩]).1.Nodup ∧
    getLock (runUploads (fun _ => "h") (fun _ => some [1]) emptyMeta
        [⟨"f", "alice", "p", 1⟩, ⟨"f", "bob", "p", 2⟩]).2.locks "f" = none :=
  C4_serialized_submits (fun _ => "h") (fun _ => some [1]) "f"
    [⟨"f", "alice", "p", 1⟩, ⟨"f", "bob", "p", 2⟩] emptyMeta
    (by decide) (by decide) rfl

/-- C5: for a stored version record of an existing file, verify recomputes
the digest of the blob at the record's storage path and answers with the
stored hash, the recomputed hash, and valid exactly when the two are equal
— so an unmodified blob (current digest equal to the stored hash) yields
valid = true, and altered bytes whose digest differs yield valid = false
with the stored hash reported unchanged — and the metadata is returned
unmutated. -/
theorem C5_verify (m : Metadata) (name : String) (version : Nat)
    (hF : List Nat → String) (bl : String → Option (List Nat))
    (f : FileRecord) (v : VersionRecord) (bytes : List Nat)
    (hf : findFile m.files name = some f)
    (hv : f.versions.find? (fun w => w.version == version) = some v)
    (hb : bl v.path = some bytes) :
    verifyHandler m name version hF bl =
      (.ok v.hash (hF bytes) (v.hash == hF bytes), m) ∧
    ((v.hash == hF bytes) = true ↔ v.hash = hF bytes) ∧
    (hF bytes = v.hash → (v.hash == hF bytes) = true) ∧
    (hF bytes ≠ v.hash → (v.hash == hF bytes) = false) := by
  refine ⟨?_, beq_iff_eq, ?_, ?_⟩
  · simp [verifyHandler, hf, hv, hb]
  · intro h
    exact beq_iff_eq.mpr h.symm
  · intro h
    exact beq_eq_false_iff_ne.mpr (fun hh => h hh.symm)

/-- C5 witness: verifying version 1 of "a" against a blob whose digest
equals the stored hash answers valid = true with unchanged metadata. -/
theorem C5_verify_witness :
    verifyHandler ⟨[⟨"a", [⟨1, "p1", "h1", "alice", 0⟩]⟩], []⟩ "a" 1
        (fun _ => "h1") (fun _ => some [7]) =
      (.ok "h1" "h1" ("h1" == "h1"),
       ⟨[⟨"a", [⟨1, "p1", "h1", "alice", 0⟩]⟩], []⟩) ∧
    (("h1" == "h1") = true ↔ ("h1" : String) = "h1") ∧
    (("h1" : String) = "h1" → ("h1" == "h1") = true) ∧
    (("h1" : String) ≠ "h1" → ("h1" == "h1") = false) :=
  C5_verify ⟨[⟨"a", [⟨1, "p1", "h1", "alice", 0⟩]⟩], []⟩ "a" 1
    (fun _ => "h1") (fun _ => some [7]) ⟨"a", [⟨1, "p1", "h1", "alice", 0⟩]⟩
    ⟨1, "p1", "h1", "alice", 0⟩ [7] rfl rfl rfl

/-- C6: when no lock entry exists for the name, or the existing entry's
holder equals the requesting principal, the upload proceeds past the lock
check (it is not rejected with FileLocked) and `lockFile` sets/overwrites
the lock entry for the name to that principal. -/
theorem C6_acquire (m : Metadata) (name p bp : String)
    (hF : List Nat → String) (bl : String → Option (List Nat)) (now : Nat)
    (h : getLock m.locks name = none ∨
         ∃ e, getLock m.locks name = some e ∧ e.lockedBy = p) :
    (uploadHandler m name p bp hF bl now).1 ≠ .locked ∧
    getLock (lockFile m name p now).locks name = some ⟨p, now⟩ := by
  have hc : lockConflict m name p = false := by
    unfold lockConflict
    rcases h with h | ⟨e, he, hep⟩
    · simp [h]
    · simp [he, hep]
  constructor
  · cases hb : bl bp with
    | none =>
      rw [uploadHandler_hashError m name p bp hF bl now hc hb]
      simp
    | some bytes =>
      rw [uploadHandler_success m name p bp hF bl now bytes hc hb]
      simp
  · exact getLock_setLock m.locks name ⟨p, now⟩

/-- C6 witness: uploading "f" as "alice" into the empty store passes the
lock check and `lockFile` records "alice" as the holder. -/
theorem C6_acquire_witness :
    (uploadHandler emptyMeta "f" "alice" "p" (fun _ => "h")
        (fun _ => some [1]) 4).1 ≠ .locked ∧
    getLock (lockFile emptyMeta "f" "alice" 4).locks "f" =
      some ⟨"alice", 4⟩ :=
  C6_acquire emptyMeta "f" "alice" "p" (fun _ => "h") (fun _ => some [1]) 4
    (Or.inl rfl)

/-- C7: lock release is idempotent: releasing an unlocked file is a no-op
(and the admin unlock endpoint answers 200 "Unlocked" rather than an
error), releasing a locked file removes the entry no matter who the holder
is while leaving every other name's entry unchanged, and releasing twice
equals releasing once. -/
theorem C7_release_idempotent (m : Metadata) (name : String) :
    (getLock m.locks name = none → unlockFile m name = m) ∧
    getLock (unlockFile m name).locks name = none ∧
    (∀ g, g ≠ name →
      getLock (unlockFile m name).locks g = getLock m.locks g) ∧
    unlockFile (unlockFile m name) name = unlockFile m name ∧
    (adminUnlockHandler m name).1 = ⟨200, [("message", "Unlocked")]⟩ ∧
    (adminUnlockHandler m name).2 = unlockFile m name := by
  refine ⟨?_, getLock_delLock_self m.locks name, ?_, ?_, rfl, rfl⟩
  · intro h
    unfold unlockFile
    rw [delLock_of_none m.locks name h]
  · intro g hg
    exact getLock_delLock_other m.locks name g hg
  · unfold unlockFile
    dsimp only
    rw [delLock_idem]

/-- C7 witness: on a store where "f" is locked by "alice", release empties
the lock entry for "f", is idempotent, and the admin endpoint reports
success. -/
theorem C7_release_idempotent_witness :
    (getLock (Metadata.locks ⟨[], [("f", ⟨"alice", 0⟩)]⟩) "f" = none →
      unlockFile ⟨[], [("f", ⟨"alice", 0⟩)]⟩ "f" =
        ⟨[], [("f", ⟨"alice", 0⟩)]⟩) ∧
    getLock (unlockFile ⟨[], [("f", ⟨"alice", 0⟩)]⟩ "f").locks "f" = none ∧
    (∀ g, g ≠ "f" →
      getLock (unlockFile ⟨[], [("f", ⟨"alice", 0⟩)]⟩ "f").locks g =
        getLock (Metadata.locks ⟨[], [("f", ⟨"alice", 0⟩)]⟩) g) ∧
    unlockFile (unlockFile ⟨[], [("f", ⟨"alice", 0⟩)]⟩ "f") "f" =
      unlockFile ⟨[], [("f", ⟨"alice", 0⟩)]⟩ "f" ∧
    (adminUnlockHandler ⟨[], [("f", ⟨"alice", 0⟩)]⟩ "f").1 =
      ⟨200, [("message", "Unlocked")]⟩ ∧
    (adminUnlockHandler ⟨[], [("f", ⟨"alice", 0⟩)]⟩ "f").2 =
      unlockFile ⟨[], [("f", ⟨"alice", 0⟩)]⟩ "f" :=
  C7_release_idempotent ⟨[], [("f", ⟨"alice", 0⟩)]⟩ "f"

/-- C8: listVersions answers NotFound exactly when no record with the name
exists and otherwise that file's version records; download answers NotFound
for an unknown file, VersionNotFound exactly when the file exists but no
stored record carries that version number, and otherwise the stored
version's storage path; neither handler mutates the metadata. -/
theorem C8_lookup (m : Metadata) (name : String) (version : Nat) :
    ((listVersionsHandler m name).1 = .notFound ↔
      ∀ f ∈ m.files, f.name ≠ name) ∧
    (∀ f, findFile m.files name = some f →
      (listVersionsHandler m name).1 = .ok f.versions) ∧
    (listVersionsHandler m name).2 = m ∧
    ((downloadHandler m name version).1 = .notFound ↔
      ∀ f ∈ m.files, f.name ≠ name) ∧
    (∀ f, findFile m.files name = some f →
      (((downloadHandler m name version).1 = .versionNotFound ↔
         ∀ w ∈ f.versions, w.version ≠ version) ∧
       (∀ w, f.versions.find? (fun w => w.version == version) = some w →
         (downloadHandler m name version).1 = .ok w.path))) ∧
    (downloadHandler m name version).2 = m := by
  have hiff : findFile m.files name = none ↔ ∀ f ∈ m.files, f.name ≠ name := by
    unfold findFile
    rw [List.find?_eq_none]
    simp [beq_iff_eq]
  cases hf : findFile m.files name with
  | none =>
    have hall : ∀ f ∈ m.files, f.name ≠ name := hiff.mp hf
    refine ⟨?_, ?_, ?_, ?_, ?_, ?_⟩
    · simp only [listVersionsHandler, hf]
      simpa using hall
    · intro f hff
      simp [hf] at hff
    · simp [listVersionsHandler, hf]
    · simp only [downloadHandler, hf]
      simpa using hall
    · intro f hff
      simp [hf] at hff
    · simp [downloadHandler, hf]
  | some f0 =>
    have hfind : m.files.find? (fun f => f.name == name) = some f0 := hf
    have hmem : f0 ∈ m.files := List.mem_of_find?_eq_some hfind
    have hbeq : (f0.name == name) = true := by
      have h := List.find?_some hfind
      simpa using h
    have hne : ¬(∀ f ∈ m.files, f.name ≠ name) := by
      intro hall
      exact hall f0 hmem (beq_iff_eq.mp hbeq)
    have hviff : (f0.versions.find? (fun w => w.version == version) = none)
        ↔ ∀ w ∈ f0.versions, w.version ≠ version := by
      rw [List.find?_eq_none]
      simp [beq_iff_eq]
    refine ⟨?_, ?_, ?_, ?_, ?_, ?_⟩
    · simp [listVersionsHandler, hf, hne]
    · intro f hff
      cases hff
      simp [listVersionsHandler, hf]
    · simp [listVersionsHandler, hf]
    · cases hw : f0.versions.find? (fun w => w.version == version) with
      | none => simp [downloadHandler, hf, hw, hne]
      | some w0 => simp [downloadHandler, hf, hw, hne]
    · intro f hff
      cases hff
      constructor
      · cases hw : f0.versions.find? (fun w => w.version == version) with
        | none =>
          simp only [downloadHandler, hf, hw]
          simpa using hviff.mp hw
        | some w0 =>
          have hwmem : w0 ∈ f0.versions := List.mem_of_find?_eq_some hw
          have hwv : w0.version = version := by
            have h := List.find?_some hw
            simpa using h
          have hnall : ¬(∀ w ∈ f0.versions, w.version ≠ version) := by
            intro hall
            exact hall w0 hwmem hwv
          simp [downloadHandler, hf, hw, hnall]
      · intro w hww
        simp [downloadHandler, hf, hww]
    · cases hw : f0.versions.find? (fun w => w.version == version) with
      | none => simp [downloadHandler, hf, hw]
      | some w0 => simp [downloadHandler, hf, hw]

/-- C8 witness: on a store holding "a" with exactly version 1, listVersions
returns that record, download of version 1 returns its path, and the
metadata is unchanged. -/
theorem C8_lookup_witness :
    ((listVersionsHandler ⟨[⟨"a", [⟨1, "p1", "h1", "alice", 0⟩]⟩], []⟩
        "a").1 = .notFound ↔
      ∀ f ∈ (Metadata.files ⟨[⟨"a", [⟨1, "p1", "h1", "alice", 0⟩]⟩], []⟩),
        f.name ≠ "a") ∧
    (∀ f, findFile (Metadata.files
        ⟨[⟨"a", [⟨1, "p1", "h1", "alice", 0⟩]⟩], []⟩) "a" = some f →
      (listVersionsHandler ⟨[⟨"a", [⟨1, "p1", "h1", "alice", 0⟩]⟩], []⟩
        "a").1 = .ok f.versions) ∧
    (listVersionsHandler ⟨[⟨"a", [⟨1, "p1", "h1", "alice", 0⟩]⟩], []⟩
        "a").2 = ⟨[⟨"a", [⟨1, "p1", "h1", "alice", 0⟩]⟩], []⟩ ∧
    ((downloadHandler ⟨[⟨"a", [⟨1, "p1", "h1", "alice", 0⟩]⟩], []⟩
        "a" 1).1 = .notFound ↔
      ∀ f ∈ (Metadata.files ⟨[⟨"a", [⟨1, "p1", "h1", "alice", 0⟩]⟩], []⟩),
        f.name ≠ "a") ∧
    (∀ f, findFile (Metadata.files
        ⟨[⟨"a", [⟨1, "p1", "h1", "alice", 0⟩]⟩], []⟩) "a" = some f →
      (((downloadHandler ⟨[⟨"a", [⟨1, "p1", "h1", "alice", 0⟩]⟩], []⟩
          "a" 1).1 = .versionNotFound ↔
         ∀ w ∈ f.versions, w.version ≠ 1) ∧
       (∀ w, f.versions.find? (fun w => w.version == 1) = some w →
         (downloadHandler ⟨[⟨"a", [⟨1, "p1", "h1", "alice", 0⟩]⟩], []⟩
           "a" 1).1 = .ok w.path))) ∧
    (downloadHandler ⟨[⟨"a", [⟨1, "p1", "h1", "alice", 0⟩]⟩], []⟩
        "a" 1).2 = ⟨[⟨"a", [⟨1, "p1", "h1", "alice", 0⟩]⟩], []⟩ :=
  C8_lookup ⟨[⟨"a", [⟨1, "p1", "h1", "alice", 0⟩]⟩], []⟩ "a" 1

/-- C9 counterexample: the /files response for a store with one file and
one stored version is the full file record, including the complete version
record with its path, hash and uploader — the claim that the response is
name/versionCount pairs without the full version records is false on the
code. -/
theorem C9_counterexample :
    (listFilesHandler ⟨[⟨"a", [⟨1, "p1", "h1", "alice", 0⟩]⟩], []⟩).1 =
      [⟨"a", [⟨1, "p1", "h1", "alice", 0⟩]⟩] ∧
    ∃ f ∈ (listFilesHandler ⟨[⟨"a", [⟨1, "p1", "h1", "alice", 0⟩]⟩], []⟩).1,
      f.versions ≠ [] := by
  refine ⟨rfl, ⟨"a", [⟨1, "p1", "h1", "alice", 0⟩]⟩, ?_, ?_⟩
  · simp [listFilesHandler]
  · simp

/-- C9 (amended): listFiles returns every known file record in insertion
order as stored — name together with the complete versions list, so the
full version records are exposed; the advertised name/versionCount summary
is exactly the image of this response under taking the name and the length
of the versions list; the handler does not mutate the metadata. -/
theorem C9_listFiles (m : Metadata) :
    (listFilesHandler m).1 = m.files ∧
    (listFilesHandler m).1.map (fun f => (f.name, f.versions.length)) =
      listFilesSpec m ∧
    (listFilesHandler m).2 = m :=
  ⟨rfl, rfl, rfl⟩

/-- C10: a successful upload of a name changes only that name's own state:
the lock table is left exactly as it was (so every other name's lock entry
is unchanged), every record with a different name is unchanged, and the
uploaded name's record afterwards is its previous versions list with
exactly one new record appended — every previously existing version record
is preserved verbatim. -/
theorem C10_upload_frame (m : Metadata) (name p bp : String)
    (hF : List Nat → String) (bl : String → Option (List Nat)) (now : Nat)
    (ver : Nat)
    (h : (uploadHandler m name p bp hF bl now).1 = .ok ver) :
    (uploadHandler m name p bp hF bl now).2.locks = m.locks ∧
    (∀ g, g ≠ name →
      findFile (uploadHandler m name p bp hF bl now).2.files g =
        findFile m.files g) ∧
    (∃ w, findFile (uploadHandler m name p bp hF bl now).2.files name =
      some ⟨name,
        (Option.elim (findFile m.files name) [] FileRecord.versions)
          ++ [w]⟩) := by
  cases hc : lockConflict m name p with
  | true =>
    rw [uploadHandler_conflict m name p bp hF bl now hc] at h
    simp at h
  | false =>
    cases hb : bl bp with
    | none =>
      rw [uploadHandler_hashError m name p bp hF bl now hc hb] at h
      simp at h
    | some bytes =>
      rw [uploadHandler_success m name p bp hF bl now bytes hc hb]
      refine ⟨rfl, ?_, ?_⟩
      · intro g hgn
        exact findFile_pushVersion_other m.files name g _ hgn
      · exact ⟨_, findFile_pushVersion_self m.files name _⟩

/-- C10 witness: a successful upload of "g" into the empty store keeps the
(empty) lock table, leaves every other name absent, and creates the record
of "g" with exactly the one new version appended. -/
theorem C10_upload_frame_witness :
    (uploadHandler emptyMeta "g" "carol" "q" (fun _ => "h2")
        (fun _ => some [2]) 3).2.locks = emptyMeta.locks ∧
    (∀ g, g ≠ "g" →
      findFile (uploadHandler emptyMeta "g" "carol" "q" (fun _ => "h2")
          (fun _ => some [2]) 3).2.files g = findFile emptyMeta.files g) ∧
    (∃ w, findFile (uploadHandler emptyMeta "g" "carol" "q" (fun _ => "h2")
        (fun _ => some [2]) 3).2.files "g" =
      some ⟨"g",
        (Option.elim (findFile emptyMeta.files "g") [] FileRecord.versions)
          ++ [w]⟩) :=
  C10_upload_frame emptyMeta "g" "carol" "q" (fun _ => "h2")
    (fun _ => some [2]) 3 1 rfl
